import Mathlib

/-!
Shallow embedding of the text-mining pipeline in
`under_development/text_mining/udacity_NLP_testing_v1.1.ipynb`:
the cleaning function `review_to_words` (markup stripping, letter filtering,
lowercasing, whitespace tokenization, NLTK English stop-word removal, NLTK
Porter stemming, re-joining), the Bag-of-Words vectorizer
`make_BoW_transform` (sklearn `CountVectorizer` with `max_features = 5000`)
and its `transform`, sklearn row L2-normalization, and the accuracy scoring
in `perform_classification`.

Python strings are embedded as `List Char` (with `String` wrappers at the
interfaces); the library calls the notebook makes (BeautifulSoup, `re.sub`,
`str.lower`, `str.split`, NLTK stop words and `PorterStemmer`,
`CountVectorizer`, `sklearn.preprocessing.normalize`, `clf.score`) are
modelled by Lean functions that follow those libraries' documented
behaviour on the ASCII text this pipeline produces.
-/

/-- Character class of the regex `[a-zA-Z]` used in
`re.sub("[^a-zA-Z]", " ", review_text)`: ASCII upper-case letter. -/
def isAsciiUpper (c : Char) : Bool :=
  decide (65 ≤ c.toNat ∧ c.toNat ≤ 90)

/-- ASCII lower-case letter `a`-`z`. -/
def isAsciiLower (c : Char) : Bool :=
  decide (97 ≤ c.toNat ∧ c.toNat ≤ 122)

/-- ASCII letter, i.e. the regex class `[a-zA-Z]`. -/
def isAsciiAlpha (c : Char) : Bool :=
  isAsciiUpper c || isAsciiLower c

/-- The whitespace characters `str.split()` splits on (ASCII range):
space, tab, newline, carriage return, vertical tab, form feed. -/
def pyIsSpace (c : Char) : Bool :=
  decide (c.toNat = 32 ∨ c.toNat = 9 ∨ c.toNat = 10 ∨ c.toNat = 13 ∨
    c.toNat = 11 ∨ c.toNat = 12)

/-- Models `BeautifulSoup(raw_review).get_text()` for well-formed markup:
text outside `<`...`>` tag delimiters is kept, tag contents are dropped.
The flag records whether the scan is currently inside a tag. -/
def stripTagsAux : Bool → List Char → List Char
  | _, [] => []
  | false, c :: rest =>
    if c == '<' then stripTagsAux true rest else c :: stripTagsAux false rest
  | true, c :: rest =>
    if c == '>' then stripTagsAux false rest else stripTagsAux true rest

/-- Markup stripping as the notebook obtains it from
`BeautifulSoup(raw_review).get_text()`. -/
def stripTags (l : List Char) : List Char :=
  stripTagsAux false l

/-- Models `re.sub("[^a-zA-Z]", " ", review_text)`: every character that is
not an ASCII letter is replaced by a space. -/
def lettersOnlyMap (l : List Char) : List Char :=
  l.map (fun c => if isAsciiAlpha c then c else ' ')

/-- Models `str.lower()` (ASCII range, which is all the pipeline feeds it):
`Char.toLower` lowers exactly the basic latin letters `A`-`Z`. -/
def toLowerL (l : List Char) : List Char :=
  l.map Char.toLower

/-- Accumulator-based splitter: `splitRunsAux p cur l` returns the maximal
runs of characters satisfying `p` in `cur.reverse ++ l`, where `cur` is the
(reversed) run in progress.  Characters failing `p` act as separators and
are dropped; no empty runs are produced. -/
def splitRunsAux (p : Char → Bool) : List Char → List Char → List (List Char)
  | cur, [] => if cur.isEmpty then [] else [cur.reverse]
  | cur, c :: rest =>
    if p c then
      splitRunsAux p (c :: cur) rest
    else if cur.isEmpty then
      splitRunsAux p [] rest
    else
      cur.reverse :: splitRunsAux p [] rest

/-- Maximal runs of characters satisfying `p`. -/
def splitRuns (p : Char → Bool) (l : List Char) : List (List Char) :=
  splitRunsAux p [] l

/-- Models `str.split()` with no argument: split on runs of whitespace,
discarding empty pieces. -/
def pySplit (l : List Char) : List (List Char) :=
  splitRuns (fun c => !(pyIsSpace c)) l

/-- Models `" ".join(words)`: concatenate the words with a single space
between consecutive words. -/
def joinWords : List (List Char) → List Char
  | [] => []
  | [w] => w
  | w :: ws => w ++ ' ' :: joinWords ws

example : stripTags ("ab<i>x</i> cd".toList) = "abx cd".toList := by decide
example : pySplit ("  ab  cd ".toList) = ["ab".toList, "cd".toList] := by decide
example : joinWords ["ab".toList, "cd".toList] = "ab cd".toList := by decide
example : lettersOnlyMap ("a1B!".toList) = "a B ".toList := by decide
example : toLowerL ("aB ".toList) = "ab ".toList := by decide

/-- Consonant test of NLTK's `PorterStemmer._is_consonant`: `a e i o u` are
vowels, `y` is a consonant at position 0 and otherwise exactly when the
previous character is not a consonant; out-of-range indices (never queried
by the algorithm) count as vowels. -/
def porterIsConsonant (w : List Char) : Nat → Bool
  | 0 =>
    match w.get? 0 with
    | none => false
    | some c =>
      if c == 'a' || c == 'e' || c == 'i' || c == 'o' || c == 'u' then false
      else true
  | i + 1 =>
    match w.get? (i + 1) with
    | none => false
    | some c =>
      if c == 'a' || c == 'e' || c == 'i' || c == 'o' || c == 'u' then false
      else if c == 'y' then !(porterIsConsonant w i)
      else true

/-- Consonant/vowel shape of a word, `true` marking consonants. -/
def porterCVSeq (w : List Char) : List Bool :=
  (List.range w.length).map (porterIsConsonant w)

/-- Number of vowel-consonant transitions, i.e. occurrences of `"vc"` in
the consonant/vowel shape string. -/
def countVC : List Bool → Nat
  | b :: c :: rest => (if !b && c then 1 else 0) + countVC (c :: rest)
  | _ => 0

/-- The measure `m` of NLTK's `PorterStemmer._measure`: a word of shape
`[c](vc)^m [v]` has measure `m`. -/
def porterMeasure (w : List Char) : Nat :=
  countVC (porterCVSeq w)

/-- NLTK `PorterStemmer._has_positive_measure`. -/
def hasPosMeasure (s : List Char) : Bool :=
  decide (0 < porterMeasure s)

/-- Measure strictly above one, the condition of Porter step 4. -/
def gtOneMeasure (s : List Char) : Bool :=
  decide (1 < porterMeasure s)

/-- NLTK `PorterStemmer._contains_vowel`. -/
def porterContainsVowel (w : List Char) : Bool :=
  (List.range w.length).any (fun i => !(porterIsConsonant w i))

/-- NLTK `PorterStemmer._ends_double_consonant`: the word ends in two
equal consonants. -/
def endsDoubleConsonant (w : List Char) : Bool :=
  decide (2 ≤ w.length) &&
    w.get? (w.length - 1) == w.get? (w.length - 2) &&
    porterIsConsonant w (w.length - 1)

/-- NLTK `PorterStemmer._ends_cvc` in `NLTK_EXTENSIONS` mode: ends
consonant-vowel-consonant with the final consonant not `w`, `x` or `y`, or
(NLTK extension) is a two-letter vowel-consonant word. -/
def endsCVC (w : List Char) : Bool :=
  (decide (3 ≤ w.length) &&
    porterIsConsonant w (w.length - 3) &&
    !(porterIsConsonant w (w.length - 2)) &&
    porterIsConsonant w (w.length - 1) &&
    !(w.get? (w.length - 1) == some 'w' || w.get? (w.length - 1) == some 'x' ||
      w.get? (w.length - 1) == some 'y')) ||
  (decide (w.length = 2) && !(porterIsConsonant w 0) && porterIsConsonant w 1)

/-- Does `w` end with `s` (Python `str.endswith`)? -/
def endsWithL (w s : List Char) : Bool :=
  decide (w.drop (w.length - s.length) = s)

/-- Drop a suffix of the given length from the end of `w`, as NLTK's
`PorterStemmer._replace_suffix` does with an empty replacement. -/
def stripSuffixL (w s : List Char) : List Char :=
  w.take (w.length - s.length)

/-- One suffix-rewriting rule of the Porter algorithm: a suffix, its
replacement, and an optional condition on the stem left after removing the
suffix. -/
structure PorterRule where
  sfx : List Char
  repl : List Char
  cond : Option (List Char → Bool)

/-- NLTK `PorterStemmer._apply_rule_list`: try the rules in order; the
first rule whose suffix matches is decisive — if its condition holds the
suffix is replaced, otherwise the word is returned unchanged. -/
def applyRuleList (w : List Char) : List PorterRule → List Char
  | [] => w
  | r :: rest =>
    if endsWithL w r.sfx then
      let stem := stripSuffixL w r.sfx
      match r.cond with
      | none => stem ++ r.repl
      | some c => if c stem then stem ++ r.repl else w
    else applyRuleList w rest

/-- NLTK `PorterStemmer._step1a`: the NLTK-only `ies`→`ie` rule for
four-letter words, then `sses`→`ss`, `ies`→`i`, `ss`→`ss`, `s`→``. -/
def step1a (w : List Char) : List Char :=
  if endsWithL w ("ies".toList) && w.length == 4 then
    stripSuffixL w ("ies".toList) ++ "ie".toList
  else
    applyRuleList w
      [⟨"sses".toList, "ss".toList, none⟩,
       ⟨"ies".toList, "i".toList, none⟩,
       ⟨"ss".toList, "ss".toList, none⟩,
       ⟨"s".toList, [], none⟩]

/-- Post-processing of NLTK `PorterStemmer._step1b` after a successful
`ed`/`ing` removal: `at`→`ate`, `bl`→`ble`, `iz`→`ize`, undouble a final
double consonant other than `l`/`s`/`z`, or append `e` to a short
(measure-one, cvc-final) stem. -/
def step1bPost (s : List Char) : List Char :=
  if endsWithL s ("at".toList) then stripSuffixL s ("at".toList) ++ "ate".toList
  else if endsWithL s ("bl".toList) then stripSuffixL s ("bl".toList) ++ "ble".toList
  else if endsWithL s ("iz".toList) then stripSuffixL s ("iz".toList) ++ "ize".toList
  else if endsDoubleConsonant s then
    if s.get? (s.length - 1) == some 'l' || s.get? (s.length - 1) == some 's' ||
        s.get? (s.length - 1) == some 'z' then s
    else s.take (s.length - 1)
  else if porterMeasure s == 1 && endsCVC s then s ++ "e".toList
  else s

/-- NLTK `PorterStemmer._step1b`: the NLTK-only `ied` rule, then
`eed`→`ee` (measure positive), then removal of `ed`/`ing` when the
remaining stem contains a vowel, followed by `step1bPost`. -/
def step1b (w : List Char) : List Char :=
  if endsWithL w ("ied".toList) then
    if w.length == 4 then stripSuffixL w ("ied".toList) ++ "ie".toList
    else stripSuffixL w ("ied".toList) ++ "i".toList
  else if endsWithL w ("eed".toList) then
    (let stem := stripSuffixL w ("eed".toList)
     if 0 < porterMeasure stem then stem ++ "ee".toList else w)
  else if endsWithL w ("ed".toList) && porterContainsVowel (stripSuffixL w ("ed".toList)) then
    step1bPost (stripSuffixL w ("ed".toList))
  else if endsWithL w ("ing".toList) && porterContainsVowel (stripSuffixL w ("ing".toList)) then
    step1bPost (stripSuffixL w ("ing".toList))
  else w

/-- NLTK `PorterStemmer._step1c` in `NLTK_EXTENSIONS` mode: final `y`
becomes `i` when preceded by a consonant that is not the word's only other
letter. -/
def step1c (w : List Char) : List Char :=
  if endsWithL w ("y".toList) then
    (let stem := stripSuffixL w ("y".toList)
     if decide (1 < stem.length) && porterIsConsonant stem (stem.length - 1) then
       stem ++ "i".toList
     else w)
  else w

/-- Rule table of NLTK `PorterStemmer._step2` in `NLTK_EXTENSIONS` mode
(`bli`→`ble` instead of `abli`→`able`, plus the `fulli` and `logi` rules).
NLTK phrases the `logi` condition as a positive measure of `word[:-3]`,
keeping the `l` with the stem; when the `logi` suffix matches, `word[:-3]`
is exactly the stem followed by `l`, which is how the condition is written
here. -/
def step2Rules : List PorterRule :=
  [⟨"ational".toList, "ate".toList, some hasPosMeasure⟩,
   ⟨"tional".toList, "tion".toList, some hasPosMeasure⟩,
   ⟨"enci".toList, "ence".toList, some hasPosMeasure⟩,
   ⟨"anci".toList, "ance".toList, some hasPosMeasure⟩,
   ⟨"izer".toList, "ize".toList, some hasPosMeasure⟩,
   ⟨"bli".toList, "ble".toList, some hasPosMeasure⟩,
   ⟨"alli".toList, "al".toList, some hasPosMeasure⟩,
   ⟨"entli".toList, "ent".toList, some hasPosMeasure⟩,
   ⟨"eli".toList, "e".toList, some hasPosMeasure⟩,
   ⟨"ousli".toList, "ous".toList, some hasPosMeasure⟩,
   ⟨"ization".toList, "ize".toList, some hasPosMeasure⟩,
   ⟨"ation".toList, "ate".toList, some hasPosMeasure⟩,
   ⟨"ator".toList, "ate".toList, some hasPosMeasure⟩,
   ⟨"alism".toList, "al".toList, some hasPosMeasure⟩,
   ⟨"iveness".toList, "ive".toList, some hasPosMeasure⟩,
   ⟨"fulness".toList, "ful".toList, some hasPosMeasure⟩,
   ⟨"ousness".toList, "ous".toList, some hasPosMeasure⟩,
   ⟨"aliti".toList, "al".toList, some hasPosMeasure⟩,
   ⟨"iviti".toList, "ive".toList, some hasPosMeasure⟩,
   ⟨"biliti".toList, "ble".toList, some hasPosMeasure⟩,
   ⟨"fulli".toList, "ful".toList, some hasPosMeasure⟩,
   ⟨"logi".toList, "log".toList, some (fun stem => hasPosMeasure (stem ++ "l".toList))⟩]

/-- Recursion of NLTK `PorterStemmer._step2` in `NLTK_EXTENSIONS` mode:
the `alli`→`al` rule is applied first and, when it fires, step 2 is re-run
on the result; otherwise the rule table decides.  Each firing shortens the
word by two characters, so fuel equal to the word length never runs out
while the rule can still fire. -/
def step2Aux : Nat → List Char → List Char
  | 0, w => applyRuleList w step2Rules
  | fuel + 1, w =>
    if endsWithL w ("alli".toList) && hasPosMeasure (stripSuffixL w ("alli".toList)) then
      step2Aux fuel (stripSuffixL w ("alli".toList) ++ "al".toList)
    else applyRuleList w step2Rules

/-- NLTK `PorterStemmer._step2`. -/
def step2 (w : List Char) : List Char :=
  step2Aux w.length w

/-- NLTK `PorterStemmer._step3`. -/
def step3 (w : List Char) : List Char :=
  applyRuleList w
    [⟨"icate".toList, "ic".toList, some hasPosMeasure⟩,
     ⟨"ative".toList, [], some hasPosMeasure⟩,
     ⟨"alize".toList, "al".toList, some hasPosMeasure⟩,
     ⟨"iciti".toList, "ic".toList, some hasPosMeasure⟩,
     ⟨"ical".toList, "ic".toList, some hasPosMeasure⟩,
     ⟨"ful".toList, [], some hasPosMeasure⟩,
     ⟨"ness".toList, [], some hasPosMeasure⟩]

/-- NLTK `PorterStemmer._step4`: suffix removal under measure above one;
`ion` additionally requires the stem to end in `s` or `t`. -/
def step4 (w : List Char) : List Char :=
  applyRuleList w
    [⟨"al".toList, [], some gtOneMeasure⟩,
     ⟨"ance".toList, [], some gtOneMeasure⟩,
     ⟨"ence".toList, [], some gtOneMeasure⟩,
     ⟨"er".toList, [], some gtOneMeasure⟩,
     ⟨"ic".toList, [], some gtOneMeasure⟩,
     ⟨"able".toList, [], some gtOneMeasure⟩,
     ⟨"ible".toList, [], some gtOneMeasure⟩,
     ⟨"ant".toList, [], some gtOneMeasure⟩,
     ⟨"ement".toList, [], some gtOneMeasure⟩,
     ⟨"ment".toList, [], some gtOneMeasure⟩,
     ⟨"ent".toList, [], some gtOneMeasure⟩,
     ⟨"ion".toList, [], some (fun stem => gtOneMeasure stem &&
        (stem.get? (stem.length - 1) == some 's' || stem.get? (stem.length - 1) == some 't'))⟩,
     ⟨"ou".toList, [], some gtOneMeasure⟩,
     ⟨"ism".toList, [], some gtOneMeasure⟩,
     ⟨"ate".toList, [], some gtOneMeasure⟩,
     ⟨"iti".toList, [], some gtOneMeasure⟩,
     ⟨"ous".toList, [], some gtOneMeasure⟩,
     ⟨"ive".toList, [], some gtOneMeasure⟩,
     ⟨"ize".toList, [], some gtOneMeasure⟩]

/-- NLTK `PorterStemmer._step5a`: drop a final `e` when the measure of the
rest is above one, or equals one and the rest does not end
consonant-vowel-consonant. -/
def step5a (w : List Char) : List Char :=
  if endsWithL w ("e".toList) then
    (let stem := stripSuffixL w ("e".toList)
     if 1 < porterMeasure stem then stem
     else if porterMeasure stem == 1 && !(endsCVC stem) then stem
     else w)
  else w

/-- NLTK `PorterStemmer._step5b`: `ll`→`l` when the measure of the word
without its final letter is above one. -/
def step5b (w : List Char) : List Char :=
  if endsWithL w ("ll".toList) then
    (if 1 < porterMeasure (w.take (w.length - 1)) then
       stripSuffixL w ("ll".toList) ++ "l".toList
     else w)
  else w

/-- Irregular-form pool of NLTK's `PorterStemmer` in `NLTK_EXTENSIONS`
mode: these words bypass the algorithm entirely. -/
def porterPool : List (List Char × List Char) :=
  [("sky", "sky"), ("skies", "sky"), ("dying", "die"), ("lying", "lie"),
   ("tying", "tie"), ("news", "news"), ("innings", "inning"),
   ("inning", "inning"), ("outings", "outing"), ("outing", "outing"),
   ("cannings", "canning"), ("canning", "canning"), ("howe", "howe"),
   ("proceed", "proceed"), ("exceed", "exceed"),
   ("succeed", "succeed")].map (fun p => (p.1.toList, p.2.toList))

/-- NLTK `PorterStemmer.stem` in its default `NLTK_EXTENSIONS` mode: pool
words are mapped directly, words of length at most two are returned
unchanged, and other words are lower-cased and passed through steps 1a to
5b. -/
def porterStemL (word : List Char) : List Char :=
  match porterPool.find? (fun p => p.1 == word) with
  | some p => p.2
  | none =>
    if word.length ≤ 2 then word
    else step5b (step5a (step4 (step3 (step2 (step1c (step1b (step1a (toLowerL word))))))))

/-- The notebook's `stemmer.stem` on Python strings. -/
def porterStem (word : String) : String :=
  String.mk (porterStemL word.toList)

example : porterStem "caresses" = "caress" := by decide
example : porterStem "ponies" = "poni" := by decide
example : porterStem "ties" = "tie" := by decide
example : porterStem "cats" = "cat" := by decide
example : porterStem "dos" = "do" := by decide
example : porterStem "agreed" = "agre" := by decide
example : porterStem "plastered" = "plaster" := by decide
example : porterStem "motoring" = "motor" := by decide
example : porterStem "sing" = "sing" := by decide
example : porterStem "hopping" = "hop" := by decide
example : porterStem "falling" = "fall" := by decide
example : porterStem "filing" = "file" := by decide
example : porterStem "happy" = "happi" := by decide
example : porterStem "relational" = "relat" := by decide
example : porterStem "electricity" = "electr" := by decide
example : porterStem "skies" = "sky" := by decide
example : porterStem "dying" = "die" := by decide
example : porterStem "hello" = "hello" := by decide
example : porterStem "world" = "world" := by decide

/-- NLTK `stopwords.words("english")`, the 127-word English stop-word list
the notebook builds its `stops` set from. -/
def stopwordsEnglish : List (List Char) :=
  (["i", "me", "my", "myself", "we", "our", "ours", "ourselves", "you",
    "your", "yours", "yourself", "yourselves", "he", "him", "his",
    "himself", "she", "her", "hers", "herself", "it", "its", "itself",
    "they", "them", "their", "theirs", "themselves", "what", "which",
    "who", "whom", "this", "that", "these", "those", "am", "is", "are",
    "was", "were", "be", "been", "being", "have", "has", "had", "having",
    "do", "does", "did", "doing", "a", "an", "the", "and", "but", "if",
    "or", "because", "as", "until", "while", "of", "at", "by", "for",
    "with", "about", "against", "between", "into", "through", "during",
    "before", "after", "above", "below", "to", "from", "up", "down", "in",
    "out", "on", "off", "over", "under", "again", "further", "then",
    "once", "here", "there", "when", "where", "why", "how", "all", "any",
    "both", "each", "few", "more", "most", "other", "some", "such", "no",
    "nor", "not", "only", "own", "same", "so", "than", "too", "very", "s",
    "t", "can", "will", "just", "don", "should", "now"] :
    List String).map String.toList

/-- The notebook's `review_to_words`: strip markup with BeautifulSoup,
replace non-letters by spaces, lower-case, split on whitespace, drop
English stop words, stem each remaining word with the Porter stemmer, and
join the stems back with single spaces. -/
def review_to_words (raw_review : String) : String :=
  let review_text := stripTags raw_review.toList
  let letters_only := lettersOnlyMap review_text
  let words := pySplit (toLowerL letters_only)
  let meaningful_words := words.filter (fun w => !(stopwordsEnglish.contains w))
  let stemmed_words := meaningful_words.map porterStemL
  String.mk (joinWords stemmed_words)

/-- The cleaning operation exactly as the specification words it: strip
markup, then remove all non-letter characters (replacing them with
spaces), then lowercase, then split on whitespace, then drop English stop
words, then stem each remaining token, then rejoin the tokens with single
spaces into one string. -/
def cleanedPerSpec (raw : String) : String :=
  String.mk (joinWords
    (((pySplit (toLowerL (lettersOnlyMap (stripTags raw.toList)))).filter
      (fun w => !(stopwordsEnglish.contains w))).map porterStemL))

/-- The cleaning pipeline with the stop-word list and the stemmer as
explicit parameters; `review_to_words` is this function applied to the
fixed NLTK English stop-word list and the fixed NLTK Porter stemmer. -/
def review_to_words_config (stops : List (List Char))
    (stem : List Char → List Char) (raw_review : String) : String :=
  String.mk (joinWords
    (((pySplit (toLowerL (lettersOnlyMap (stripTags raw_review.toList)))).filter
      (fun w => !(stops.contains w))).map stem))

/-- The list of stems whose single-space join is `review_to_words raw`:
the stop-word-filtered, stemmed tokens of the cleaned text. -/
def cleanWords (raw : String) : List (List Char) :=
  ((pySplit (toLowerL (lettersOnlyMap (stripTags raw.toList)))).filter
    (fun w => !(stopwordsEnglish.contains w))).map porterStemL

example : review_to_words "dos" = "do" := by decide
example : review_to_words "do" = "" := by decide
example : review_to_words "hello world" = "hello world" := by decide
example : review_to_words "<b>The Dogs!!</b> ran 42 times" = "dog ran time" := by decide
example : review_to_words "123 !?" = "" := by decide

/-- Character class `\w` of sklearn's default `token_pattern`
`(?u)\b\w\w+\b` (ASCII range): letters, digits, underscore. -/
def isWordChar (c : Char) : Bool :=
  isAsciiAlpha c || decide (48 ≤ c.toNat ∧ c.toNat ≤ 57) || c == '_'

/-- The `CountVectorizer(analyzer = "word")` analyzer with its defaults:
lower-case the document, then take the maximal runs of word characters of
length at least two (the token pattern `\b\w\w+\b`). -/
def cvTokens (doc : String) : List (List Char) :=
  (splitRuns isWordChar (toLowerL doc.toList)).filter (fun t => decide (2 ≤ t.length))

/-- Lexicographic code-point order on embedded strings, the order Python's
`sorted` and sklearn's vocabulary indexing use on these ASCII tokens. -/
def lexLe : List Char → List Char → Bool
  | [], _ => true
  | _ :: _, [] => false
  | a :: as, b :: bs =>
    if a.toNat < b.toNat then true
    else if b.toNat < a.toNat then false
    else lexLe as bs

/-- Insertion of one element into a sorted list under a boolean
comparator. -/
def insertOrd (le : List Char → List Char → Bool) (x : List Char) :
    List (List Char) → List (List Char)
  | [] => [x]
  | y :: ys => if le x y then x :: y :: ys else y :: insertOrd le x ys

/-- Insertion sort under a boolean comparator, used to model the
frequency ordering and the alphabetical vocabulary ordering of
`CountVectorizer`. -/
def sortOrd (le : List Char → List Char → Bool) :
    List (List Char) → List (List Char)
  | [] => []
  | x :: xs => insertOrd le x (sortOrd le xs)

/-- The notebook's `make_BoW_transform`: fit a
`CountVectorizer(max_features = 5000)` on the training corpus.  The fitted
vocabulary consists of the distinct analyzed tokens of the corpus, ordered
by descending total frequency, cut to the top 5000, and finally put in
sklearn's alphabetical feature order. -/
def make_BoW_transform (train_dataset : List String) : List (List Char) :=
  let toks := (train_dataset.map cvTokens).flatten
  let byFreq := sortOrd (fun a b => decide (toks.count b ≤ toks.count a)) toks.dedup
  sortOrd lexLe (byFreq.take 5000)

/-- Count vector of a token list over a fitted vocabulary: entry `j`
counts the occurrences of the `j`-th vocabulary token. -/
def transformTokens (vocab : List (List Char)) (toks : List (List Char)) : List Nat :=
  vocab.map (fun v => toks.count v)

/-- One row of `BoW_transform.transform(...)`: the count vector of a
document's analyzed tokens over the fitted vocabulary. -/
def BoW_transform_transform (vocab : List (List Char)) (doc : String) : List Nat :=
  transformTokens vocab (cvTokens doc)

/-- Sum of squares of a rational vector. -/
def sumSq (v : List ℚ) : ℚ :=
  (v.map (fun x => x * x)).sum

/-- Sum of squares of a real vector. -/
def sumSqR (v : List ℝ) : ℝ :=
  (v.map (fun x => x * x)).sum

/-- Euclidean norm of a real vector. -/
noncomputable def l2normR (v : List ℝ) : ℝ :=
  Real.sqrt (sumSqR v)

/-- One row of `sklearn.preprocessing.normalize(X, axis = 1)` (default L2
norm), in exact real arithmetic: the row is divided by its Euclidean norm,
with a zero norm replaced by one exactly as sklearn's
`norms[norms == 0.0] = 1.0` does. -/
noncomputable def normalizeRow (v : List ℚ) : List ℝ :=
  let n : ℝ := Real.sqrt ((sumSq v : ℝ))
  let d : ℝ := if n = 0 then 1 else n
  v.map (fun x : ℚ => (x : ℝ) / d)

/-- `sklearn.preprocessing.normalize(X, axis = 1)` on a whole matrix:
each row is normalized independently. -/
noncomputable def sklearnNormalize (M : List (List ℚ)) : List (List ℝ) :=
  M.map normalizeRow

/-- Modelled from the spec: `clf.score(X, y)` of the
`GradientBoostingClassifier` is sklearn's mean accuracy, the fraction of
rows of `X` whose prediction equals the corresponding label in `y`. -/
def clf_score {α : Type} (predict : α → Int) (X : List α) (y : List Int) : ℚ :=
  (((X.map predict).zip y).countP (fun p => p.1 == p.2) : ℚ) / (X.length : ℚ)

/-- The notebook's `perform_classification`, with the boosting trainer
(library code, `GradientBoostingClassifier(n_estimators=100,
learning_rate=1.0, max_depth=1, random_state=0)`) as an explicit
deterministic fit function: fit on the training data, then return the
accuracy scores on the training and testing sets. -/
def perform_classification {α : Type} (fitClf : List α → List Int → α → Int)
    (X_train : List α) (y_train : List Int)
    (X_test : List α) (y_test : List Int) : ℚ × ℚ :=
  let clf := fitClf X_train y_train
  (clf_score clf X_train y_train, clf_score clf X_test y_test)

example : cvTokens "ab a cd ab" = ["ab".toList, "cd".toList, "ab".toList] := by decide
example : make_BoW_transform ["ab cd", "cd xy cd"] =
    ["ab".toList, "cd".toList, "xy".toList] := by decide
example : BoW_transform_transform ["ab".toList, "cd".toList] "cd zz cd" = [0, 2] := by decide

/-- A word is good when it is nonempty and consists of lower-case ASCII
letters only — the shape of every token the cleaning pipeline feeds to the
stop-word filter and the stemmer. -/
def GoodW (w : List Char) : Prop :=
  w ≠ [] ∧ ∀ c ∈ w, isAsciiLower c = true

lemma charToNat_ofNat_valid {n : Nat} (h : n < 55296) : (Char.ofNat n).toNat = n := by
  have hv : n.isValidChar := Or.inl h
  rw [Char.ofNat, dif_pos hv]
  simp [Char.ofNatAux, Char.toNat, UInt32.toNat]

lemma toLower_of_isAsciiLower {c : Char} (h : isAsciiLower c = true) :
    Char.toLower c = c := by
  simp only [isAsciiLower, decide_eq_true_eq] at h
  rw [Char.toLower, if_neg]
  omega

lemma isAsciiLower_toLower_of_upper {c : Char} (h : isAsciiUpper c = true) :
    isAsciiLower (Char.toLower c) = true := by
  simp only [isAsciiUpper, decide_eq_true_eq] at h
  rw [Char.toLower, if_pos h]
  simp only [isAsciiLower, decide_eq_true_eq]
  rw [charToNat_ofNat_valid (by omega)]
  omega

lemma isAsciiLower_ne_space {c : Char} (h : isAsciiLower c = true) : c ≠ ' ' := by
  intro hc
  subst hc
  exact absurd h (by decide)

lemma isAsciiLower_not_space {c : Char} (h : isAsciiLower c = true) :
    pyIsSpace c = false := by
  simp only [isAsciiLower, decide_eq_true_eq] at h
  simp only [pyIsSpace, decide_eq_false_iff_not]
  omega

lemma isAsciiLower_ne_lt {c : Char} (h : isAsciiLower c = true) : c ≠ '<' := by
  intro hc
  subst hc
  exact absurd h (by decide)

/-- Every character of the lower-cased, letters-only text is a lower-case
ASCII letter or a space. -/
lemma mem_toLowerL_lettersOnly {l : List Char} {c : Char}
    (hc : c ∈ toLowerL (lettersOnlyMap l)) : isAsciiLower c = true ∨ c = ' ' := by
  simp only [toLowerL, lettersOnlyMap, List.map_map, List.mem_map,
    Function.comp_apply] at hc
  obtain ⟨d, -, rfl⟩ := hc
  by_cases hd : isAsciiAlpha d = true
  · rw [if_pos hd]
    rcases Bool.or_eq_true_iff.mp (by simpa [isAsciiAlpha] using hd) with hu | hl
    · exact Or.inl (isAsciiLower_toLower_of_upper hu)
    · exact Or.inl (by rw [toLower_of_isAsciiLower hl]; exact hl)
  · rw [if_neg hd]
    exact Or.inr (by decide)

/-- Tokens produced by `splitRunsAux` are nonempty, consist of characters
satisfying the run predicate, and draw their characters from the run in
progress or the remaining input. -/
lemma splitRunsAux_tokens {p : Char → Bool} {P : Char → Prop} :
    ∀ (l cur : List Char), (∀ c ∈ cur, p c = true ∧ P c) → (∀ c ∈ l, P c) →
    ∀ t ∈ splitRunsAux p cur l, t ≠ [] ∧ ∀ c ∈ t, p c = true ∧ P c := by
  intro l
  induction l with
  | nil =>
    intro cur hcur _ t ht
    simp only [splitRunsAux] at ht
    by_cases hc : cur.isEmpty = true
    · rw [if_pos hc] at ht
      simp at ht
    · rw [if_neg hc] at ht
      rcases List.mem_singleton.mp ht with rfl
      refine ⟨?_, ?_⟩
      · simp only [ne_eq, List.reverse_eq_nil_iff]
        simpa [List.isEmpty_iff] using hc
      · intro c hc2
        exact hcur c (List.mem_reverse.mp hc2)
  | cons a rest ih =>
    intro cur hcur hl t ht
    simp only [splitRunsAux] at ht
    by_cases hpa : p a = true
    · rw [if_pos hpa] at ht
      refine ih (a :: cur) ?_ (fun c hc => hl c (List.mem_cons_of_mem _ hc)) t ht
      intro c hc
      rcases List.mem_cons.mp hc with rfl | hc
      · exact ⟨hpa, hl c (List.mem_cons_self _ _)⟩
      · exact hcur c hc
    · rw [if_neg hpa] at ht
      by_cases hc : cur.isEmpty = true
      · rw [if_pos hc] at ht
        exact ih [] (by simp) (fun c hc => hl c (List.mem_cons_of_mem _ hc)) t ht
      · rw [if_neg hc] at ht
        rcases List.mem_cons.mp ht with rfl | ht
        · refine ⟨?_, ?_⟩
          · simp only [ne_eq, List.reverse_eq_nil_iff]
            simpa [List.isEmpty_iff] using hc
          · intro c hc2
            exact hcur c (List.mem_reverse.mp hc2)
        · exact ih [] (by simp) (fun c hc => hl c (List.mem_cons_of_mem _ hc)) t ht

/-- Feeding a run of characters satisfying `p` into `splitRunsAux` just
extends the run in progress. -/
lemma splitRunsAux_append_run {p : Char → Bool} {l : List Char} :
    ∀ (w cur : List Char), (∀ c ∈ w, p c = true) →
    splitRunsAux p cur (w ++ l) = splitRunsAux p (w.reverse ++ cur) l := by
  intro w
  induction w with
  | nil => intro cur _; simp
  | cons a w' ih =>
    intro cur hw
    show splitRunsAux p cur (a :: (w' ++ l)) = _
    simp only [splitRunsAux]
    rw [if_pos (hw a (List.mem_cons_self _ _))]
    rw [ih (a :: cur) (fun c hc => hw c (List.mem_cons_of_mem _ hc))]
    simp

/-- Splitting the single-space join of nonempty separator-free words
recovers exactly those words. -/
lemma splitRuns_joinWords {p : Char → Bool} (hsep : p ' ' = false) :
    ∀ ws : List (List Char), (∀ w ∈ ws, w ≠ [] ∧ ∀ c ∈ w, p c = true) →
    splitRuns p (joinWords ws) = ws := by
  intro ws
  induction ws with
  | nil => intro _; rfl
  | cons w ws ih =>
    intro hws
    obtain ⟨hwne, hwp⟩ := hws w (List.mem_cons_self _ _)
    cases ws with
    | nil =>
      show splitRunsAux p [] (joinWords [w]) = [w]
      have : joinWords [w] = w ++ [] := by simp [joinWords]
      rw [this, splitRunsAux_append_run w [] hwp]
      simp only [splitRunsAux, List.append_nil]
      rw [if_neg (by simpa [List.isEmpty_iff] using hwne)]
      simp
    | cons w2 ws2 =>
      show splitRunsAux p [] (joinWords (w :: w2 :: ws2)) = w :: w2 :: ws2
      have hj : joinWords (w :: w2 :: ws2) = w ++ ' ' :: joinWords (w2 :: ws2) := rfl
      rw [hj, splitRunsAux_append_run w [] hwp]
      simp only [List.append_nil, splitRunsAux, hsep]
      rw [if_neg (by simp), if_neg (by simpa [List.isEmpty_iff] using hwne)]
      simp only [List.reverse_reverse, List.cons.injEq, true_and]
      exact ih (fun v hv => hws v (List.mem_cons_of_mem _ hv))

/-- Splitting a string of pure separators produces no tokens. -/
lemma splitRuns_all_sep {p : Char → Bool} :
    ∀ l : List Char, (∀ c ∈ l, p c = false) → splitRuns p l = [] := by
  intro l
  induction l with
  | nil => intro _; rfl
  | cons a rest ih =>
    intro hl
    show splitRunsAux p [] (a :: rest) = []
    simp only [splitRunsAux, hl a (List.mem_cons_self _ _)]
    exact ih (fun c hc => hl c (List.mem_cons_of_mem _ hc))

/-- Characters of a single-space join come from the words or are spaces. -/
lemma mem_joinWords {ws : List (List Char)} {c : Char} (hc : c ∈ joinWords ws) :
    (∃ w ∈ ws, c ∈ w) ∨ c = ' ' := by
  induction ws with
  | nil => simp [joinWords] at hc
  | cons w ws ih =>
    cases ws with
    | nil => exact Or.inl ⟨w, List.mem_cons_self _ _, by simpa [joinWords] using hc⟩
    | cons w2 ws2 =>
      have hc2 : c ∈ w ++ ' ' :: joinWords (w2 :: ws2) := hc
      rcases List.mem_append.mp hc2 with hcw | hcr
      · exact Or.inl ⟨w, List.mem_cons_self _ _, hcw⟩
      · rcases List.mem_cons.mp hcr with rfl | hcj
        · exact Or.inr rfl
        · rcases ih hcj with ⟨v, hv, hcv⟩ | hsp
          · exact Or.inl ⟨v, List.mem_cons_of_mem _ hv, hcv⟩
          · exact Or.inr hsp

/-- Tag stripping is the identity on text with no `<`. -/
lemma stripTags_id {l : List Char} (h : ∀ c ∈ l, c ≠ '<') : stripTags l = l := by
  show stripTagsAux false l = l
  induction l with
  | nil => rfl
  | cons a rest ih =>
    simp only [stripTagsAux]
    rw [if_neg (by simpa using h a (List.mem_cons_self _ _))]
    rw [ih (fun c hc => h c (List.mem_cons_of_mem _ hc))]

/-- Letter filtering is the identity on letters-and-spaces text. -/
lemma lettersOnlyMap_id {l : List Char} (h : ∀ c ∈ l, isAsciiAlpha c = true ∨ c = ' ') :
    lettersOnlyMap l = l := by
  unfold lettersOnlyMap
  have : ∀ c ∈ l, (if isAsciiAlpha c then c else ' ') = id c := by
    intro c hc
    rcases h c hc with ha | rfl
    · simp [ha]
    · simp
  rw [List.map_congr_left this, List.map_id]

/-- ASCII lower-casing is the identity on lower-case-and-spaces text. -/
lemma toLowerL_id {l : List Char} (h : ∀ c ∈ l, isAsciiLower c = true ∨ c = ' ') :
    toLowerL l = l := by
  unfold toLowerL
  have : ∀ c ∈ l, Char.toLower c = id c := by
    intro c hc
    rcases h c hc with ha | rfl
    · exact toLower_of_isAsciiLower ha
    · decide
  rw [List.map_congr_left this, List.map_id]

lemma lower_of_take {w : List Char} (hw : ∀ c ∈ w, isAsciiLower c = true) (n : Nat) :
    ∀ c ∈ w.take n, isAsciiLower c = true :=
  fun c hc => hw c (List.take_subset n w hc)

lemma lower_append {a b : List Char} (ha : ∀ c ∈ a, isAsciiLower c = true)
    (hb : ∀ c ∈ b, isAsciiLower c = true) : ∀ c ∈ a ++ b, isAsciiLower c = true := by
  intro c hc
  rcases List.mem_append.mp hc with h | h
  · exact ha c h
  · exact hb c h

lemma take_ne_nil_len {w : List Char} {n : Nat} (h0 : 0 < n) (h1 : 0 < w.length) :
    w.take n ≠ [] := by
  have : 0 < (w.take n).length := by
    rw [List.length_take]
    omega
  exact List.length_pos.mp this

lemma good_take_append {w r : List Char} (hlw : ∀ c ∈ w, isAsciiLower c = true)
    {n : Nat} (hr : ∀ c ∈ r, isAsciiLower c = true)
    (hne : w.take n ≠ [] ∨ r ≠ []) : GoodW (w.take n ++ r) := by
  refine ⟨?_, lower_append (lower_of_take hlw n) hr⟩
  intro habs
  rcases List.append_eq_nil.mp habs with ⟨h1, h2⟩
  rcases hne with h | h
  · exact h h1
  · exact h h2

lemma ne_nil_of_measure_pos {s : List Char} (h : 0 < porterMeasure s) : s ≠ [] := by
  intro hs
  subst hs
  exact absurd h (by decide)

lemma ne_nil_of_containsVowel {s : List Char} (h : porterContainsVowel s = true) :
    s ≠ [] := by
  intro hs
  subst hs
  exact absurd h (by decide)

/-- A rule application preserves good words as long as every rule's
replacement is lower-case and every rule with an empty replacement has a
condition that fails on the empty stem. -/
lemma applyRuleList_good {rules : List PorterRule}
    (hrules : ∀ r ∈ rules, (∀ c ∈ r.repl, isAsciiLower c = true) ∧
      (r.repl = [] → ∃ f, r.cond = some f ∧ f [] = false)) :
    ∀ w, GoodW w → GoodW (applyRuleList w rules) := by
  induction rules with
  | nil => exact fun w hw => hw
  | cons r rest ih =>
    intro w hw
    obtain ⟨hrepl, hremp⟩ := hrules r (List.mem_cons_self _ _)
    simp only [applyRuleList]
    by_cases he : endsWithL w r.sfx = true
    · rw [if_pos he]
      cases hcond : r.cond with
      | none =>
        refine good_take_append hw.2 hrepl (Or.inr ?_)
        intro h2
        obtain ⟨f, hf, -⟩ := hremp h2
        rw [hcond] at hf
        cases hf
      | some f =>
        show GoodW (if f (stripSuffixL w r.sfx) = true then
          stripSuffixL w r.sfx ++ r.repl else w)
        by_cases hf : f (stripSuffixL w r.sfx) = true
        · rw [if_pos hf]
          refine good_take_append hw.2 hrepl ?_
          by_cases h2 : r.repl = []
          · obtain ⟨g, hg, hg0⟩ := hremp h2
            rw [hcond] at hg
            injection hg with hg
            subst hg
            refine Or.inl ?_
            intro h1
            rw [show stripSuffixL w r.sfx = w.take (w.length - r.sfx.length) from rfl, h1] at hf
            rw [hf] at hg0
            cases hg0
          · exact Or.inr h2
        · rw [if_neg hf]
          exact hw
    · rw [if_neg he]
      exact ih (fun r2 hr2 => hrules r2 (List.mem_cons_of_mem _ hr2)) w hw

lemma step1a_good {w : List Char} (hw : GoodW w) (hlen : 3 ≤ w.length) :
    GoodW (step1a w) := by
  obtain ⟨hne, hlw⟩ := hw
  simp only [step1a, applyRuleList]
  split_ifs with h1 h2 h3 h4 h5
  · exact good_take_append hlw (by decide) (Or.inr (by decide))
  · exact good_take_append hlw (by decide) (Or.inr (by decide))
  · exact good_take_append hlw (by decide) (Or.inr (by decide))
  · exact good_take_append hlw (by decide) (Or.inr (by decide))
  · refine good_take_append hlw (by decide) (Or.inl (take_ne_nil_len ?_ (by omega)))
    have hs1 : ("s".toList).length = 1 := rfl
    omega
  · exact ⟨hne, hlw⟩

lemma step1bPost_good {s : List Char} (hs : GoodW s) : GoodW (step1bPost s) := by
  obtain ⟨hne, hlw⟩ := hs
  simp only [step1bPost]
  split_ifs with h1 h2 h3 h4 h5 h6
  · exact good_take_append hlw (by decide) (Or.inr (by decide))
  · exact good_take_append hlw (by decide) (Or.inr (by decide))
  · exact good_take_append hlw (by decide) (Or.inr (by decide))
  · exact ⟨hne, hlw⟩
  · have hlen : 2 ≤ s.length := by
      simp only [endsDoubleConsonant, Bool.and_eq_true, decide_eq_true_eq] at h4
      exact h4.1.1
    exact ⟨take_ne_nil_len (by omega) (by omega), lower_of_take hlw _⟩
  · refine ⟨?_, lower_append hlw (by decide)⟩
    simp [List.append_eq_nil]
  · exact ⟨hne, hlw⟩

lemma step1b_good {w : List Char} (hw : GoodW w) : GoodW (step1b w) := by
  obtain ⟨hne, hlw⟩ := hw
  simp only [step1b]
  split_ifs with h1 h2 h3 h4 h5 h6
  · exact good_take_append hlw (by decide) (Or.inr (by decide))
  · exact good_take_append hlw (by decide) (Or.inr (by decide))
  · exact good_take_append hlw (by decide) (Or.inr (by decide))
  · exact ⟨hne, hlw⟩
  · refine step1bPost_good ⟨?_, lower_of_take hlw _⟩
    exact ne_nil_of_containsVowel (Bool.and_eq_true_iff.mp h5).2
  · refine step1bPost_good ⟨?_, lower_of_take hlw _⟩
    exact ne_nil_of_containsVowel (Bool.and_eq_true_iff.mp h6).2
  · exact ⟨hne, hlw⟩

lemma step1c_good {w : List Char} (hw : GoodW w) : GoodW (step1c w) := by
  obtain ⟨hne, hlw⟩ := hw
  simp only [step1c]
  split_ifs with h1 h2
  · exact good_take_append hlw (by decide) (Or.inr (by decide))
  · exact ⟨hne, hlw⟩
  · exact ⟨hne, hlw⟩

lemma step2Rules_side : ∀ r ∈ step2Rules,
    (∀ c ∈ r.repl, isAsciiLower c = true) ∧
    (r.repl = [] → ∃ f, r.cond = some f ∧ f [] = false) := by
  intro r hr
  fin_cases hr <;> exact ⟨by decide, fun h => absurd h (by decide)⟩

lemma step2Aux_good : ∀ (fuel : Nat) (w : List Char), GoodW w → GoodW (step2Aux fuel w) := by
  intro fuel
  induction fuel with
  | zero => exact fun w hw => applyRuleList_good step2Rules_side w hw
  | succ fuel ih =>
    intro w hw
    simp only [step2Aux]
    split_ifs with h1
    · exact ih _ (good_take_append hw.2 (by decide) (Or.inr (by decide)))
    · exact applyRuleList_good step2Rules_side w hw

lemma step2_good {w : List Char} (hw : GoodW w) : GoodW (step2 w) :=
  step2Aux_good w.length w hw

lemma step3_good {w : List Char} (hw : GoodW w) : GoodW (step3 w) := by
  refine applyRuleList_good ?_ w hw
  intro r hr
  fin_cases hr <;> dsimp only <;>
    first
      | exact ⟨by decide, fun h => absurd h (by decide)⟩
      | exact ⟨by decide, fun _ => ⟨hasPosMeasure, rfl, by decide⟩⟩

lemma step4_good {w : List Char} (hw : GoodW w) : GoodW (step4 w) := by
  refine applyRuleList_good ?_ w hw
  intro r hr
  fin_cases hr <;> dsimp only <;> exact ⟨by decide, fun _ => ⟨_, rfl, by decide⟩⟩

lemma step5a_good {w : List Char} (hw : GoodW w) : GoodW (step5a w) := by
  obtain ⟨hne, hlw⟩ := hw
  simp only [step5a]
  split_ifs with h1 h2 h3
  · exact ⟨ne_nil_of_measure_pos (by omega), lower_of_take hlw _⟩
  · have hm : porterMeasure (stripSuffixL w ("e".toList)) = 1 := by
      simpa using (Bool.and_eq_true_iff.mp h3).1
    exact ⟨ne_nil_of_measure_pos (by omega), lower_of_take hlw _⟩
  · exact ⟨hne, hlw⟩
  · exact ⟨hne, hlw⟩

lemma step5b_good {w : List Char} (hw : GoodW w) : GoodW (step5b w) := by
  obtain ⟨hne, hlw⟩ := hw
  simp only [step5b]
  split_ifs with h1 h2
  · exact good_take_append hlw (by decide) (Or.inr (by decide))
  · exact ⟨hne, hlw⟩
  · exact ⟨hne, hlw⟩

lemma porterPool_good : ∀ p ∈ porterPool, GoodW p.2 := by
  intro p hp
  fin_cases hp <;> exact ⟨by decide, by decide⟩

/-- The Porter stemmer maps good words to good words: stems of nonempty
all-lower-case words are nonempty and all lower-case. -/
lemma porterStemL_good {w : List Char} (hw : GoodW w) : GoodW (porterStemL w) := by
  unfold porterStemL
  split
  · next p hfind => exact porterPool_good _ (List.mem_of_find?_eq_some hfind)
  · next hfind =>
    split
    · exact hw
    · next hlen =>
      rw [toLowerL_id (fun c hc => Or.inl (hw.2 c hc))]
      exact step5b_good (step5a_good (step4_good (step3_good (step2_good
        (step1c_good (step1b_good (step1a_good hw (by omega))))))))

lemma review_to_words_eq_join (raw : String) :
    review_to_words raw = String.mk (joinWords (cleanWords raw)) := rfl

/-- Every stem produced by the cleaning pipeline is nonempty and consists
of lower-case ASCII letters. -/
lemma cleanWords_good (raw : String) : ∀ w ∈ cleanWords raw, GoodW w := by
  intro w hw
  simp only [cleanWords, List.mem_map] at hw
  obtain ⟨v, hv, rfl⟩ := hw
  refine porterStemL_good ?_
  have hv2 : v ∈ pySplit (toLowerL (lettersOnlyMap (stripTags raw.toList))) :=
    List.mem_of_mem_filter hv
  have htok := splitRunsAux_tokens
    (p := fun c => !(pyIsSpace c)) (P := fun c => isAsciiLower c = true ∨ c = ' ')
    (toLowerL (lettersOnlyMap (stripTags raw.toList))) [] (by simp)
    (fun c hc => mem_toLowerL_lettersOnly hc) v hv2
  obtain ⟨hne, hch⟩ := htok
  refine ⟨hne, ?_⟩
  intro c hc
  obtain ⟨hp, hP⟩ := hch c hc
  rcases hP with h | rfl
  · exact h
  · exact absurd hp (by decide)

lemma cleanWords_chars {raw : String} {c : Char}
    (hc : c ∈ joinWords (cleanWords raw)) : isAsciiLower c = true ∨ c = ' ' := by
  rcases mem_joinWords hc with ⟨w, hw, hcw⟩ | rfl
  · exact Or.inl ((cleanWords_good raw w hw).2 c hcw)
  · exact Or.inr rfl

lemma pySplit_joinWords_cleanWords (raw : String) :
    pySplit (joinWords (cleanWords raw)) = cleanWords raw := by
  refine splitRuns_joinWords (by decide) _ ?_
  intro w hw
  obtain ⟨hne, hlw⟩ := cleanWords_good raw w hw
  exact ⟨hne, fun c hc => by simp [isAsciiLower_not_space (hlw c hc)]⟩

/-- C1 (counterexample): the claim "applying `review_to_words` to any
string that is already an output of `review_to_words` returns it
unchanged" is false: `review_to_words "dos" = "do"` (Porter step 1a drops
the final `s`), and `"do"` is an English stop word, so re-cleaning yields
`""`. -/
theorem cleaning_idempotent_counterexample :
    ¬ (∀ s : String, (∃ raw : String, review_to_words raw = s) →
      review_to_words s = s) := by
  intro h
  have h1 := h (review_to_words "dos") ⟨"dos", rfl⟩
  rw [show review_to_words "dos" = "do" from by decide] at h1
  exact absurd h1 (by decide)

/-- C1 (amended): re-cleaning a cleaned string returns it unchanged
provided no token of the cleaned string is an English stop word and every
token is a fixed point of the Porter stemmer. -/
theorem cleaning_idempotent_on_stable_tokens (raw : String)
    (h : ∀ t ∈ pySplit (review_to_words raw).toList,
      stopwordsEnglish.contains t = false ∧ porterStemL t = t) :
    review_to_words (review_to_words raw) = review_to_words raw := by
  have htoks : (review_to_words raw).toList = joinWords (cleanWords raw) := rfl
  have hsplit : pySplit (joinWords (cleanWords raw)) = cleanWords raw :=
    pySplit_joinWords_cleanWords raw
  have hstems : ∀ t ∈ cleanWords raw,
      stopwordsEnglish.contains t = false ∧ porterStemL t = t := by
    intro t ht
    exact h t (by rw [htoks, hsplit]; exact ht)
  rw [show review_to_words raw = String.mk (joinWords (cleanWords raw)) from rfl]
  have hchars : ∀ c ∈ joinWords (cleanWords raw), isAsciiLower c = true ∨ c = ' ' :=
    fun c hc => cleanWords_chars hc
  have h1 : stripTags (joinWords (cleanWords raw)) = joinWords (cleanWords raw) := by
    refine stripTags_id ?_
    intro c hc
    rcases hchars c hc with hl | rfl
    · exact isAsciiLower_ne_lt hl
    · decide
  have h2 : lettersOnlyMap (joinWords (cleanWords raw)) = joinWords (cleanWords raw) := by
    refine lettersOnlyMap_id ?_
    intro c hc
    rcases hchars c hc with hl | rfl
    · exact Or.inl (by simp [isAsciiAlpha, hl])
    · exact Or.inr rfl
  have h3 : toLowerL (joinWords (cleanWords raw)) = joinWords (cleanWords raw) :=
    toLowerL_id hchars
  have h5 : (cleanWords raw).filter (fun w => !(stopwordsEnglish.contains w)) =
      cleanWords raw := by
    refine List.filter_eq_self.mpr ?_
    intro t ht
    simp only [(hstems t ht).1, Bool.not_false]
  have h6 : (cleanWords raw).map porterStemL = cleanWords raw := by
    rw [List.map_congr_left (fun t ht => ((hstems t ht).2 : porterStemL t = id t))]
    exact List.map_id _
  calc review_to_words (String.mk (joinWords (cleanWords raw)))
      = String.mk (joinWords
          (((pySplit (toLowerL (lettersOnlyMap (stripTags (joinWords (cleanWords raw)))))).filter
            (fun w => !(stopwordsEnglish.contains w))).map porterStemL)) := rfl
    _ = String.mk (joinWords (cleanWords raw)) := by rw [h1, h2, h3, hsplit, h5, h6]

theorem cleaning_idempotent_on_stable_tokens_witness :
    review_to_words (review_to_words "hello world") = review_to_words "hello world" :=
  cleaning_idempotent_on_stable_tokens "hello world" (by decide)

/-- C2: on every input string, `review_to_words` equals the composition
the specification describes, in the specification's order: strip markup,
remove non-letters (as spaces), lowercase, split on whitespace, drop stop
words, stem, rejoin with single spaces. -/
theorem review_to_words_matches_spec_pipeline :
    ∀ raw : String, review_to_words raw = cleanedPerSpec raw :=
  fun _ => rfl

/-- C8: the cleaning operation is a deterministic pure function: equal
inputs give equal outputs, and the output depends only on the input text
together with the fixed stop-word list and the fixed Porter stemmer. -/
theorem review_to_words_deterministic_and_pure :
    (∀ s : String, review_to_words s = review_to_words s) ∧
    (∀ s : String, review_to_words s =
      review_to_words_config stopwordsEnglish porterStemL s) :=
  ⟨fun _ => rfl, fun _ => rfl⟩

/-- C9: an input with no ASCII letters after markup stripping cleans to
the empty string (and in particular does not fail). -/
theorem review_to_words_no_letters_empty (raw : String)
    (h : ∀ c ∈ stripTags raw.toList, isAsciiAlpha c = false) :
    review_to_words raw = "" := by
  have h1 : ∀ c ∈ lettersOnlyMap (stripTags raw.toList), c = ' ' := by
    intro c hc
    simp only [lettersOnlyMap, List.mem_map] at hc
    obtain ⟨d, hd, rfl⟩ := hc
    rw [if_neg (by simp [h d hd])]
  have h3 : pySplit (toLowerL (lettersOnlyMap (stripTags raw.toList))) = [] := by
    refine splitRuns_all_sep _ ?_
    intro c hc
    simp only [toLowerL, List.mem_map] at hc
    obtain ⟨d, hd, rfl⟩ := hc
    rw [h1 d hd]
    decide
  simp only [review_to_words]
  rw [h3]
  rfl

theorem review_to_words_no_letters_empty_witness :
    review_to_words "123 !?" = "" :=
  review_to_words_no_letters_empty "123 !?" (by decide)

/-- C10: every whitespace-separated token of a cleaned string is nonempty
and consists solely of lower-case ASCII letters. -/
theorem review_to_words_tokens_lowercase (raw : String) :
    ∀ t ∈ pySplit (review_to_words raw).toList,
      t ≠ [] ∧ ∀ c ∈ t, isAsciiLower c = true := by
  intro t ht
  have htoks : (review_to_words raw).toList = joinWords (cleanWords raw) := rfl
  rw [htoks, pySplit_joinWords_cleanWords raw] at ht
  exact cleanWords_good raw t ht

theorem review_to_words_tokens_lowercase_witness :
    "dog".toList ≠ [] ∧ ∀ c ∈ "dog".toList, isAsciiLower c = true :=
  review_to_words_tokens_lowercase "<b>The Dogs!!</b> ran 42 times" "dog".toList
    (by decide)

lemma insertOrd_length (le : List Char → List Char → Bool) (x : List Char) :
    ∀ l, (insertOrd le x l).length = l.length + 1 := by
  intro l
  induction l with
  | nil => rfl
  | cons y ys ih =>
    simp only [insertOrd]
    split_ifs
    · rfl
    · simp [ih]

lemma sortOrd_length (le : List Char → List Char → Bool) :
    ∀ l, (sortOrd le l).length = l.length := by
  intro l
  induction l with
  | nil => rfl
  | cons x xs ih =>
    simp only [sortOrd]
    rw [insertOrd_length, ih]
    rfl

lemma insertOrd_perm (le : List Char → List Char → Bool) (x : List Char) :
    ∀ l, (insertOrd le x l).Perm (x :: l) := by
  intro l
  induction l with
  | nil => exact List.Perm.refl _
  | cons y ys ih =>
    simp only [insertOrd]
    split_ifs
    · exact List.Perm.refl _
    · exact (ih.cons y).trans (List.Perm.swap x y ys)

lemma sortOrd_perm (le : List Char → List Char → Bool) :
    ∀ l, (sortOrd le l).Perm l := by
  intro l
  induction l with
  | nil => exact List.Perm.refl _
  | cons x xs ih => exact (insertOrd_perm le x _).trans (ih.cons x)

/-- C3: the fitted vocabulary holds at most 5000 tokens, and they are
distinct.  The transform never alters the fitted vocabulary — it is a pure
function of the vocabulary and the document (see the frame theorem for
C6) — so the bound persists across transform calls. -/
theorem vocabulary_size_le_max (train_dataset : List String) :
    (make_BoW_transform train_dataset).length ≤ 5000 ∧
    (make_BoW_transform train_dataset).Nodup := by
  constructor
  · simp only [make_BoW_transform]
    rw [sortOrd_length]
    exact List.length_take_le _ _
  · simp only [make_BoW_transform]
    refine ((sortOrd_perm _ _).nodup_iff).mpr ?_
    refine List.Nodup.sublist (List.take_sublist _ _) ?_
    exact ((sortOrd_perm _ _).nodup_iff).mpr (List.nodup_dedup _)

/-- C4: every transformed document yields a feature vector whose length is
the vocabulary size and whose entries are all non-negative. -/
theorem feature_vector_length_and_nonneg (train_dataset : List String) (doc : String) :
    (BoW_transform_transform (make_BoW_transform train_dataset) doc).length =
      (make_BoW_transform train_dataset).length ∧
    ∀ x ∈ BoW_transform_transform (make_BoW_transform train_dataset) doc, 0 ≤ x :=
  ⟨by simp [BoW_transform_transform, transformTokens], fun x _ => Nat.zero_le x⟩

theorem feature_vector_length_and_nonneg_witness :
    (BoW_transform_transform (make_BoW_transform ["ab ab cd"]) "ab xy").length =
      (make_BoW_transform ["ab ab cd"]).length ∧ 0 ≤ 1 :=
  ⟨(feature_vector_length_and_nonneg ["ab ab cd"] "ab xy").1,
   (feature_vector_length_and_nonneg ["ab ab cd"] "ab xy").2 1 (by decide)⟩

/-- C6: the transform is a pure function of the fitted vocabulary — entry
`j` of the output is exactly the count of the `j`-th vocabulary token in
the document, so the vocabulary is reused unchanged — and tokens absent
from the vocabulary contribute nothing: removing them from the document
leaves the output vector unchanged. -/
theorem vocabulary_fixed_and_unseen_ignored :
    (∀ (vocab toks : List (List Char)),
      transformTokens vocab toks =
        transformTokens vocab (toks.filter (fun t => vocab.contains t))) ∧
    (∀ (vocab : List (List Char)) (doc : String) (i : Nat),
      (BoW_transform_transform vocab doc).get? i =
        (vocab.get? i).map (fun v => (cvTokens doc).count v)) := by
  constructor
  · intro vocab toks
    simp only [transformTokens]
    refine List.map_congr_left ?_
    intro v hv
    rw [List.count_filter (by simpa using hv)]
  · intro vocab doc i
    simp only [BoW_transform_transform, transformTokens]
    exact List.get?_map _ _ _

lemma sumSq_nonneg (v : List ℚ) : 0 ≤ sumSq v := by
  unfold sumSq
  induction v with
  | nil => simp
  | cons x xs ih =>
    simp only [List.map_cons, List.sum_cons]
    exact add_nonneg (mul_self_nonneg x) ih

lemma sumSqR_map_div (d : ℝ) : ∀ v : List ℚ,
    sumSqR (v.map (fun x : ℚ => (x : ℝ) / d)) = (sumSq v : ℝ) / (d * d) := by
  intro v
  induction v with
  | nil => simp [sumSqR, sumSq]
  | cons x xs ih =>
    simp only [sumSqR, sumSq, List.map_cons, List.sum_cons] at ih ⊢
    rw [ih]
    push_cast
    ring

/-- C5: after row normalization a row of nonzero norm has Euclidean norm
one, a zero row (in particular an empty document's all-zero count row) is
returned unchanged, and row `i` of the normalized matrix depends only on
row `i` of the input. -/
theorem normalize_unit_norm_or_zero :
    (∀ v : List ℚ, sumSq v ≠ 0 → l2normR (normalizeRow v) = 1) ∧
    (∀ v : List ℚ, sumSq v = 0 → normalizeRow v = v.map (fun x : ℚ => (x : ℝ))) ∧
    (∀ (M : List (List ℚ)) (i : Nat),
      (sklearnNormalize M).get? i = (M.get? i).map normalizeRow) := by
  refine ⟨?_, ?_, ?_⟩
  · intro v hv
    have h0 : (0 : ℝ) ≤ (sumSq v : ℝ) := by exact_mod_cast sumSq_nonneg v
    have hpos : (0 : ℝ) < (sumSq v : ℝ) := by
      rcases lt_or_eq_of_le h0 with h | h
      · exact h
      · exact absurd (by exact_mod_cast h.symm) hv
    have hsq : Real.sqrt ((sumSq v : ℝ)) ≠ 0 :=
      ne_of_gt (Real.sqrt_pos.mpr hpos)
    simp only [normalizeRow, l2normR]
    rw [if_neg hsq, sumSqR_map_div, Real.mul_self_sqrt h0,
      div_self (ne_of_gt hpos)]
    exact Real.sqrt_one
  · intro v hv
    simp only [normalizeRow, hv]
    norm_num
  · intro M i
    simp only [sklearnNormalize]
    exact List.get?_map _ _ _

theorem normalize_unit_norm_or_zero_witness :
    l2normR (normalizeRow [3, 4]) = 1 ∧
    normalizeRow [0, 0] = ([0, 0] : List ℚ).map (fun x : ℚ => (x : ℝ)) :=
  ⟨normalize_unit_norm_or_zero.1 [3, 4] (by norm_num [sumSq]),
   normalize_unit_norm_or_zero.2.1 [0, 0] (by norm_num [sumSq])⟩

lemma clf_score_unit_interval {α : Type} (predict : α → Int)
    (X : List α) (y : List Int) :
    0 ≤ clf_score predict X y ∧ clf_score predict X y ≤ 1 := by
  unfold clf_score
  constructor
  · positivity
  · refine div_le_one_of_le₀ ?_ (by positivity)
    have h1 : ((X.map predict).zip y).countP (fun p => p.1 == p.2) ≤ X.length := by
      calc ((X.map predict).zip y).countP (fun p => p.1 == p.2)
          ≤ ((X.map predict).zip y).length := List.countP_le_length _
        _ ≤ (X.map predict).length := by
            rw [List.length_zip]
            omega
        _ = X.length := List.length_map _ _
    exact_mod_cast h1

/-- C7: both accuracies returned by `perform_classification` lie in the
unit interval, and — the fit being a deterministic function of the data
and the fixed seed — two runs on identical inputs return identical
accuracies. -/
theorem accuracy_in_unit_interval_and_reproducible (α : Type)
    (fitClf : List α → List Int → α → Int) (X_train : List α)
    (y_train : List Int) (X_test : List α) (y_test : List Int) :
    (0 ≤ (perform_classification fitClf X_train y_train X_test y_test).1 ∧
      (perform_classification fitClf X_train y_train X_test y_test).1 ≤ 1) ∧
    (0 ≤ (perform_classification fitClf X_train y_train X_test y_test).2 ∧
      (perform_classification fitClf X_train y_train X_test y_test).2 ≤ 1) ∧
    perform_classification fitClf X_train y_train X_test y_test =
      perform_classification fitClf X_train y_train X_test y_test :=
  ⟨clf_score_unit_interval _ _ _, clf_score_unit_interval _ _ _, rfl⟩
